import Mathlib

/-!
Shallow embedding of `src/homework/language_models.py`.

Modelling conventions:

* Tokens are Lean `String`s.  Python dicts are insertion-ordered association
  lists (`List (key × value)`); lookup takes the first matching key, which
  agrees with dict lookup because dict keys are unique.
* Python floats are modelled as exact rationals.  A natural-log probability
  value is encoded by the *product* of the underlying probabilities: the float
  `logp` computed by the source equals `ln q` of the rational `q` carried
  here, with `q = 0` encoding `float("-inf")`.  Since `ln` is strictly
  monotone on `[0, ∞)` (sending `0` to `-inf` below every real), every
  comparison, branch and accumulation of the source is preserved exactly:
  `logp += log p` becomes `q := q * p`, `-inf` absorption becomes `0 * p = 0`,
  and `score > best_score` becomes `>` on the encoded products.
* The `ValueError` raised by the source's one unguarded `math.log` call
  (on the initial seed probability, when it is not positive and the seed is
  non-empty) is modelled by an `Option` result, `none` meaning the exception.
* File I/O is outside the model: `bigram_model` receives the corpus as its
  list of lines.
-/

attribute [local semireducible] Rat.mul Rat.add Rat.inv Rat.sub

def UNKNOWN : String := ""

def INIT : String := "[INIT]"

abbrev Row := List (String × ℚ)

abbrev Table := List (String × Row)

/-- Whitespace characters recognized by Python `str.split()` (ASCII). -/
def pySpace (c : Char) : Bool :=
  c = ' ' || c = '\t' || c = '\n' || c = '\r' || c = '\x0b' || c = '\x0c'

/-- Splits a list of characters into the maximal runs of non-whitespace
characters, as Python `line.split()` does.  Leading/trailing whitespace is
dropped, so the source's `line.strip()` before splitting is already accounted
for.  The first argument accumulates the current word, reversed. -/
def splitWs : List Char → List Char → List (List Char)
  | cur, [] => if cur.isEmpty then [] else [cur.reverse]
  | cur, c :: cs =>
    if pySpace c then
      (if cur.isEmpty then splitWs [] cs else cur.reverse :: splitWs [] cs)
    else splitWs (c :: cur) cs

/-- `line.split()` as a list of tokens. -/
def lineWords (line : String) : List String :=
  (splitWs [] line.data).map (fun cs => ⟨cs⟩)

/-- The token lists of the non-blank corpus lines (the source's
`for line in f` loop skips lines that are empty after `strip()`, i.e. exactly
the lines with no tokens). -/
def corpusWords (corpus : List String) : List (List String) :=
  (corpus.map lineWords).filter (fun ws => !ws.isEmpty)

/-- All `(prev, curr)` pairs counted by the source's nested loop: within each
line `prev` starts at `INIT` and advances over consecutive tokens. -/
def allPairs (corpus : List String) : List (String × String) :=
  ((corpusWords corpus).map (fun ws => List.zip (INIT :: ws) ws)).flatten

/-- `bigram_counts.get(p, {}).get(c, 0)`. -/
def countPair (corpus : List String) (p c : String) : Nat :=
  (allPairs corpus).count (p, c)

/-- `prev_counts.get(p, 0)`: one increment per counted pair with first
component `p`. -/
def prevCount (corpus : List String) (p : String) : Nat :=
  ((allPairs corpus).filter (fun pr => pr.1 = p)).length

/-- The set `vocab` of words seen in the corpus.  Python `set` iteration
order is unspecified, so any duplicate-free enumeration is a faithful model;
`dedup` provides one. -/
def vocab (corpus : List String) : List String :=
  ((corpusWords corpus).flatten).dedup

/-- `next_vocab = set(vocab) ∪ {UNKNOWN}`; its size is the smoothing
constant `smooth`. -/
def nextVocab (corpus : List String) : List String :=
  (vocab corpus ++ [UNKNOWN]).dedup

/-- The observed previous tokens (`prev_counts.keys()`) together with `INIT`
and `UNKNOWN`. -/
def prevVocab (corpus : List String) : List String :=
  ((allPairs corpus).map Prod.fst ++ [INIT, UNKNOWN]).dedup

/-- One Laplace-smoothed table entry `(count(p,c) + 1) / (totalCount(p) + S)`. -/
def smoothProb (corpus : List String) (p c : String) : ℚ :=
  (countPair corpus p c + 1) / (prevCount corpus p + (nextVocab corpus).length)

/-- The fully materialized row `model[p]` for previous token `p`. -/
def buildRow (corpus : List String) (p : String) : Row :=
  (nextVocab corpus).map (fun c => (c, smoothProb corpus p c))

/-- `bigram_model`, with the corpus given as its list of lines (a resource
error would propagate before any of this runs and no table is produced). -/
def bigram_model (corpus : List String) : Table :=
  (prevVocab corpus).map (fun p => (p, buildRow corpus p))

/-- First-match association-list lookup: Python `d[k]`, `k in d`, `d.get`. -/
def findVal {α : Type} : List (String × α) → String → Option α
  | [], _ => none
  | kv :: rest, k => if kv.1 = k then some kv.2 else findVal rest k

def _get_row (bigram_probs : Table) (prev : String) : Row :=
  match findVal bigram_probs prev with
  | some row => row
  | none =>
    match findVal bigram_probs UNKNOWN with
    | some row => row
    | none => []

def _get_prob (bigram_probs : Table) (prev curr : String) : ℚ :=
  match findVal (_get_row bigram_probs prev) curr with
  | some v => v
  | none =>
    match findVal (_get_row bigram_probs prev) UNKNOWN with
    | some v => v
    | none => 0

/-- Python's `string.punctuation`: 32 ASCII characters. -/
def punctuationChars : List Char :=
  "!\"#$%&'()*+,-./:;<=>?@[\\]^_`\x7b|\x7d~".data

/-- A token is punctuation iff it is non-empty and all of its characters are
in `string.punctuation`. -/
def _is_punct (tok : String) : Bool :=
  tok ≠ "" && tok.data.all (fun ch => punctuationChars.contains ch)

/-- Ordering used by `sorted(row.items(), key=lambda kv: kv[1], reverse=True)`:
probability descending.  The order of candidates with equal probabilities is
irrelevant to every property proved below (and in the source it depends on
unspecified Python set iteration order anyway). -/
def probGE (a b : String × ℚ) : Prop := b.2 ≤ a.2

instance : DecidableRel probGE := fun a b => inferInstanceAs (Decidable (b.2 ≤ a.2))

instance : IsTotal (String × ℚ) probGE := ⟨fun a b => le_total b.2 a.2⟩

instance : IsTrans (String × ℚ) probGE := ⟨fun _ _ _ h1 h2 => le_trans h2 h1⟩

/-- The source's `sorted(row.items(), key=lambda kv: kv[1], reverse=True)`. -/
def sortDesc (l : Row) : Row := l.insertionSort probGE

/-- Which stage of the source's three-stage fallback chain chose a token: the
primary constrained pass (which avoids `UNKNOWN`), the relaxed pass that
re-admits `UNKNOWN`, or the absolute `UNKNOWN` fallback.  This is ghost data:
it is recorded alongside the sequence for specification purposes and never
consulted by the algorithm itself. -/
inductive Mech
  | pass1
  | pass2
  | fallback
deriving DecidableEq, Repr

/-- The admissibility checks shared by every candidate scan in both
generators: the candidate is not `INIT`, does not overflow the punctuation
budget, and is not a repeat of an already used non-punctuation token. -/
def passOk (maxPunct punctUsed : Nat) (used : List String) (tok : String) : Bool :=
  tok ≠ INIT && !(_is_punct tok && decide (maxPunct ≤ punctUsed)) &&
    !(!_is_punct tok && decide (tok ∈ used))

/-- The greedy selection (`sequence_generator`'s loop body): first the
constrained pass skipping `UNKNOWN`, then the relaxed pass, then the absolute
`UNKNOWN` fallback. -/
def chooseGreedy (maxPunct punctUsed : Nat) (used : List String) (cands : Row) :
    String × Mech :=
  match cands.find? (fun kv => passOk maxPunct punctUsed used kv.1 && kv.1 ≠ UNKNOWN) with
  | some kv => (kv.1, Mech.pass1)
  | none =>
    match cands.find? (fun kv => passOk maxPunct punctUsed used kv.1) with
    | some kv => (kv.1, Mech.pass2)
    | none => (UNKNOWN, Mech.fallback)

/-- The in-progress generation state shared by both generators.  `q` is the
product encoding of the accumulated float log-probability `logp` (see the
header comment); `mechs` is the ghost trace recording how each generated
(non-seed) token was chosen. -/
structure GState where
  seq : List String
  q : ℚ
  punctUsed : Nat
  usedNonpunct : List String
  prev : String
  mechs : List Mech
deriving Repr

/-- One iteration of `sequence_generator`'s `while` loop. -/
def greedyStep (bigram_probs : Table) (maxPunct : Nat) (st : GState) : GState :=
  let cm := chooseGreedy maxPunct st.punctUsed st.usedNonpunct
    (sortDesc (_get_row bigram_probs st.prev))
  let chosen := cm.1
  let pUse := _get_prob bigram_probs st.prev chosen
  { seq := st.seq ++ [chosen]
    q := if 0 < pUse then st.q * pUse else 0
    punctUsed := if _is_punct chosen then st.punctUsed + 1 else st.punctUsed
    usedNonpunct := if _is_punct chosen then st.usedNonpunct else chosen :: st.usedNonpunct
    prev := chosen
    mechs := st.mechs ++ [cm.2] }

/-- The lookahead factor for a first-step candidate `tok`: the source's
`best_log_next` in product encoding (`0` encodes `-inf`).  It is the
probability of the first admissible entry of `tok`'s row in descending order
(clamped to `0` when that probability is not positive), and `0` when no entry
is admissible under the hypothetically updated constraint state. -/
def bestNextProd (bigram_probs : Table) (maxPunct newPunct : Nat) (newUsed : List String)
    (tok : String) : ℚ :=
  match (sortDesc (_get_row bigram_probs tok)).find?
      (fun kv2 => passOk maxPunct newPunct newUsed kv2.1) with
  | some kv2 => if 0 < kv2.2 then kv2.2 else 0
  | none => 0

/-- The source's `score` for first-step candidate `tok` in product encoding:
`score = (ln p12 if p12 > 0 else -inf) + (best_log_next if finite else 0.0)`
becomes `(p12 clamped to 0) * (best_next product, or 1 when that is 0)`. -/
def lookScore (bigram_probs : Table) (maxPunct punctUsed : Nat) (used : List String)
    (tok : String) (p12 : ℚ) : ℚ :=
  let newPunct := if _is_punct tok then punctUsed + 1 else punctUsed
  let newUsed := if _is_punct tok then used else tok :: used
  let bl := bestNextProd bigram_probs maxPunct newPunct newUsed tok
  (if 0 < p12 then p12 else 0) * (if bl ≠ 0 then bl else 1)

/-- The scored pass of `sequence_generator_plus`: running maximum of the
scores over the admissible non-`UNKNOWN` candidates.  `best_score` starts at
`float("-inf")`, i.e. encoded `0`, and is updated on strict improvement. -/
def scanBest (bigram_probs : Table) (maxPunct punctUsed : Nat) (used : List String) :
    Row → Option String × ℚ → Option String × ℚ
  | [], acc => acc
  | kv :: rest, acc =>
    if passOk maxPunct punctUsed used kv.1 && kv.1 ≠ UNKNOWN then
      let sc := lookScore bigram_probs maxPunct punctUsed used kv.1 kv.2
      if acc.2 < sc then scanBest bigram_probs maxPunct punctUsed used rest (some kv.1, sc)
      else scanBest bigram_probs maxPunct punctUsed used rest acc
    else scanBest bigram_probs maxPunct punctUsed used rest acc

/-- The lookahead selection (`sequence_generator_plus`'s loop body): the
scored pass, then the relaxed pass admitting `UNKNOWN`, then the absolute
`UNKNOWN` fallback. -/
def choosePlus (bigram_probs : Table) (maxPunct punctUsed : Nat) (used : List String)
    (cands : Row) : String × Mech :=
  match (scanBest bigram_probs maxPunct punctUsed used cands (none, 0)).1 with
  | some tok => (tok, Mech.pass1)
  | none =>
    match cands.find? (fun kv => passOk maxPunct punctUsed used kv.1) with
    | some kv => (kv.1, Mech.pass2)
    | none => (UNKNOWN, Mech.fallback)

/-- One iteration of `sequence_generator_plus`'s `while` loop. -/
def plusStep (bigram_probs : Table) (maxPunct : Nat) (st : GState) : GState :=
  let cm := choosePlus bigram_probs maxPunct st.punctUsed st.usedNonpunct
    (sortDesc (_get_row bigram_probs st.prev))
  let chosen := cm.1
  let pUse := _get_prob bigram_probs st.prev chosen
  { seq := st.seq ++ [chosen]
    q := if 0 < pUse then st.q * pUse else 0
    punctUsed := if _is_punct chosen then st.punctUsed + 1 else st.punctUsed
    usedNonpunct := if _is_punct chosen then st.usedNonpunct else chosen :: st.usedNonpunct
    prev := chosen
    mechs := st.mechs ++ [cm.2] }

/-- Bounded iteration of a loop body (the `while len(seq) < length` loop runs
exactly `length - 1` times because every iteration appends one token). -/
def iterN (f : GState → GState) : Nat → GState → GState
  | 0, st => st
  | n + 1, st => iterN f n (f st)

/-- The generation state just before the loop: `seq = [init_word]`, the
initial `logp` (`ln` of the seed probability, or `0.0` for an empty seed, in
product encoding), and the punctuation / used-token bookkeeping seeded from
`init_word`. -/
def initState (bigram_probs : Table) (init_word : String) : GState :=
  { seq := [init_word]
    q := if init_word = "" then 1 else _get_prob bigram_probs INIT init_word
    punctUsed := if _is_punct init_word then 1 else 0
    usedNonpunct := if _is_punct init_word then [] else [init_word]
    prev := init_word
    mechs := [] }

/-- Whether the unguarded `math.log` on the initial seed probability raises
`ValueError`: the seed is non-empty (truthy) and its probability under `INIT`
is not positive. -/
def initRaises (bigram_probs : Table) (init_word : String) : Prop :=
  init_word ≠ "" ∧ _get_prob bigram_probs INIT init_word ≤ 0

instance (bigram_probs : Table) (init_word : String) :
    Decidable (initRaises bigram_probs init_word) :=
  inferInstanceAs (Decidable (_ ∧ _))

/-- The full run of the loop, exposing the final state (ghost trace
included). -/
def greedyRun (bigram_probs : Table) (init_word : String) (len : Int) : GState :=
  iterN (greedyStep bigram_probs (len.toNat / 5)) (len.toNat - 1)
    (initState bigram_probs init_word)

def plusRun (bigram_probs : Table) (init_word : String) (len : Int) : GState :=
  iterN (plusStep bigram_probs (len.toNat / 5)) (len.toNat - 1)
    (initState bigram_probs init_word)

/-- `sequence_generator`.  `none` models the `ValueError` raised by the
unguarded `math.log` on the initial probability; otherwise the returned pair
is the sequence and the accumulated log-probability in product encoding. -/
def sequence_generator (bigram_probs : Table) (init_word : String) (len : Int) :
    Option (List String × ℚ) :=
  if len ≤ 0 then some ([], 1)
  else if initRaises bigram_probs init_word then none
  else
    let st := greedyRun bigram_probs init_word len
    some (st.seq, st.q)

/-- `sequence_generator_plus`, same conventions as `sequence_generator`. -/
def sequence_generator_plus (bigram_probs : Table) (init_word : String) (len : Int) :
    Option (List String × ℚ) :=
  if len ≤ 0 then some ([], 1)
  else if initRaises bigram_probs init_word then none
  else
    let st := plusRun bigram_probs init_word len
    some (st.seq, st.q)

/-- The probability of one table cell: `table[p][c]` when both keys are
present.  (Direct dictionary access, no `UNKNOWN` fallback — used to state
what `bigram_model` materializes.) -/
def tableEntry (t : Table) (p c : String) : Option ℚ :=
  (findVal t p).bind (fun row => findVal row c)

/-! ### Association-list lookup lemmas -/

theorem findVal_map_self {α : Type} (f : String → α) :
    ∀ (l : List String), l.Nodup → ∀ k ∈ l, findVal (l.map fun x => (x, f x)) k = some (f k) := by
  intro l
  induction l with
  | nil => intro _ k hk; cases hk
  | cons a t ih =>
    intro hnd k hk
    rw [List.nodup_cons] at hnd
    rcases List.mem_cons.mp hk with h | h
    · subst h; simp [findVal]
    · have hne : a ≠ k := fun hak => hnd.1 (hak ▸ h)
      simp only [List.map_cons, findVal, if_neg hne]
      exact ih hnd.2 k h

theorem findVal_mem_of_eq_some {α : Type} :
    ∀ {l : List (String × α)} {k : String} {v : α}, findVal l k = some v → (k, v) ∈ l := by
  intro l
  induction l with
  | nil => intro k v h; simp [findVal] at h
  | cons kv rest ih =>
    intro k v h
    simp only [findVal] at h
    by_cases hk : kv.1 = k
    · rw [if_pos hk] at h
      cases h
      exact List.mem_cons.mpr (Or.inl (by rw [← hk]))
    · rw [if_neg hk] at h
      exact List.mem_cons_of_mem _ (ih h)

/-! ### Counting lemmas: every smoothed row is a distribution -/

theorem sum_map_add_nat (f g : String → Nat) :
    ∀ (cs : List String), (cs.map (fun c => f c + g c)).sum = (cs.map f).sum + (cs.map g).sum := by
  intro cs
  induction cs with
  | nil => rfl
  | cons a t ih => simp [ih]; omega

theorem sum_ite_eq_one (a : String) :
    ∀ (cs : List String), cs.Nodup → a ∈ cs →
      (cs.map (fun c => if a = c then 1 else 0)).sum = 1 := by
  intro cs
  induction cs with
  | nil => intro _ h; cases h
  | cons b t ih =>
    intro hnd hmem
    rw [List.nodup_cons] at hnd
    rcases List.mem_cons.mp hmem with h | h
    · subst h
      have hz : (List.map (fun c => if a = c then 1 else 0) t).sum = 0 := by
        apply List.sum_eq_zero
        intro x hx
        rcases List.mem_map.mp hx with ⟨c, hc, hcx⟩
        rw [← hcx, if_neg]
        intro hac
        exact hnd.1 (hac ▸ hc)
      simp [hz]
    · have hba : a ≠ b := fun hab => hnd.1 (hab ▸ h)
      simp only [List.map_cons, if_neg hba, List.sum_cons, Nat.zero_add]
      exact ih hnd.2 h

theorem sum_counts_eq_length (cs : List String) (hnd : cs.Nodup) :
    ∀ (l : List String), (∀ x ∈ l, x ∈ cs) → (cs.map (fun c => l.count c)).sum = l.length := by
  intro l
  induction l with
  | nil => intro _; simp
  | cons a t ih =>
    intro hsub
    have hcount : ∀ c : String, (a :: t).count c = t.count c + (if a = c then 1 else 0) := by
      intro c
      rw [List.count_cons]
      simp [beq_iff_eq]
    have hmapeq : (cs.map fun c => (a :: t).count c) =
        cs.map (fun c => t.count c + (if a = c then 1 else 0)) := by
      exact List.map_congr_left (fun c _ => hcount c)
    rw [hmapeq, sum_map_add_nat]
    rw [ih (fun x hx => hsub x (List.mem_cons_of_mem a hx)),
      sum_ite_eq_one a cs hnd (hsub a (List.mem_cons_self a t))]
    simp

theorem count_pair_filter (p c : String) :
    ∀ (l : List (String × String)),
      l.count (p, c) = ((l.filter (fun pr => decide (pr.1 = p))).map Prod.snd).count c := by
  intro l
  induction l with
  | nil => rfl
  | cons pr rest ih =>
    obtain ⟨p', c'⟩ := pr
    by_cases hp : p' = p
    · subst hp
      have hfil : ((p', c') :: rest).filter (fun pr => decide (pr.1 = p')) =
          (p', c') :: rest.filter (fun pr => decide (pr.1 = p')) := by
        simp [List.filter_cons]
      rw [List.count_cons, hfil, List.map_cons, List.count_cons, ih]
      congr 1
      by_cases hc : c' = c
      · subst hc; simp
      · simp [beq_iff_eq, Prod.ext_iff, hc]
    · rw [List.count_cons]
      have hfilter : ((p', c') :: rest).filter (fun pr => decide (pr.1 = p)) =
          rest.filter (fun pr => decide (pr.1 = p)) := by
        simp [List.filter_cons, hp]
      rw [hfilter, ← ih]
      have hbe : ((p', c') == (p, c)) = false := by
        apply beq_false_of_ne
        intro h
        exact hp (congrArg Prod.fst h)
      simp [hbe]

theorem snd_mem_of_mem_zip {pr : String × String} :
    ∀ (l1 l2 : List String), pr ∈ List.zip l1 l2 → pr.2 ∈ l2 := by
  intro l1
  induction l1 with
  | nil => intro l2 h; simp [List.zip] at h
  | cons a t ih =>
    intro l2 h
    cases l2 with
    | nil => simp [List.zip] at h
    | cons b t2 =>
      rcases List.mem_cons.mp h with h1 | h1
      · rw [h1]; exact List.mem_cons_self b t2
      · exact List.mem_cons_of_mem b (ih t2 h1)

theorem snd_mem_vocab {corpus : List String} {pr : String × String}
    (h : pr ∈ allPairs corpus) : pr.2 ∈ vocab corpus := by
  unfold allPairs at h
  rcases List.mem_flatten.mp h with ⟨l, hl, hpr⟩
  rcases List.mem_map.mp hl with ⟨ws, hws, hzip⟩
  rw [← hzip] at hpr
  have h2 : pr.2 ∈ ws := snd_mem_of_mem_zip _ _ hpr
  unfold vocab
  exact List.mem_dedup.mpr (List.mem_flatten.mpr ⟨ws, hws, h2⟩)

theorem mem_nextVocab_of_vocab {corpus : List String} {x : String}
    (h : x ∈ vocab corpus) : x ∈ nextVocab corpus :=
  List.mem_dedup.mpr (List.mem_append.mpr (Or.inl h))

theorem unknown_mem_nextVocab (corpus : List String) : UNKNOWN ∈ nextVocab corpus :=
  List.mem_dedup.mpr (List.mem_append.mpr (Or.inr (List.mem_singleton.mpr rfl)))

theorem nextVocab_length_pos (corpus : List String) : 0 < (nextVocab corpus).length :=
  List.length_pos.mpr (fun he => by
    have := unknown_mem_nextVocab corpus
    rw [he] at this
    cases this)

theorem sum_countPair_eq_prevCount (corpus : List String) (p : String) :
    ((nextVocab corpus).map (fun c => countPair corpus p c)).sum = prevCount corpus p := by
  have hmapeq : ((nextVocab corpus).map (fun c => countPair corpus p c)) =
      (nextVocab corpus).map
        (fun c => (((allPairs corpus).filter (fun pr => decide (pr.1 = p))).map Prod.snd).count c) := by
    apply List.map_congr_left
    intro c _
    exact count_pair_filter p c (allPairs corpus)
  rw [hmapeq]
  rw [sum_counts_eq_length (nextVocab corpus) (List.nodup_dedup _)]
  · rw [List.length_map]
    rfl
  · intro x hx
    rcases List.mem_map.mp hx with ⟨pr, hpr, hx2⟩
    have hmem : pr ∈ allPairs corpus := List.mem_of_mem_filter hpr
    rw [← hx2]
    exact mem_nextVocab_of_vocab (snd_mem_vocab hmem)

theorem sum_div_one_plus (f : String → Nat) (D : ℚ) :
    ∀ (cs : List String),
      (cs.map (fun c => ((f c : ℚ) + 1) / D)).sum = (((cs.map f).sum : ℚ) + cs.length) / D := by
  intro cs
  induction cs with
  | nil => simp
  | cons a t ih =>
    rw [List.map_cons, List.sum_cons, ih, div_add_div_same]
    rw [List.map_cons, List.sum_cons, List.length_cons]
    congr 1
    push_cast
    ring

theorem buildRow_snd_sum (corpus : List String) (p : String) :
    ((buildRow corpus p).map Prod.snd).sum = 1 := by
  unfold buildRow
  rw [List.map_map]
  have hcomp : (Prod.snd ∘ fun c => (c, smoothProb corpus p c)) =
      fun c => ((countPair corpus p c : ℚ) + 1) /
        ((prevCount corpus p : ℚ) + ((nextVocab corpus).length : ℚ)) := by
    funext c
    simp [smoothProb]
  rw [hcomp, sum_div_one_plus (fun c => countPair corpus p c)
    ((prevCount corpus p : ℚ) + ((nextVocab corpus).length : ℚ)) (nextVocab corpus)]
  rw [sum_countPair_eq_prevCount]
  apply div_self
  have hlen := nextVocab_length_pos corpus
  positivity

theorem smoothProb_pos (corpus : List String) (p c : String) : 0 < smoothProb corpus p c := by
  unfold smoothProb
  have hlen := nextVocab_length_pos corpus
  positivity

theorem prevVocab_nodup (corpus : List String) : (prevVocab corpus).Nodup :=
  List.nodup_dedup _

theorem nextVocab_nodup (corpus : List String) : (nextVocab corpus).Nodup :=
  List.nodup_dedup _

/-- C1.  For every corpus, the table built by `bigram_model` assigns, for each
materialized previous token `p` and each current token `c` in
vocabulary ∪ {UNKNOWN}, probability `(count(p,c) + 1) / (totalCount(p) + S)`
with `S = |vocabulary ∪ {UNKNOWN}|`, counts defaulting to `0` for unobserved
`p`.  (`countPair`/`prevCount` are total functions that are `0` off their
support, exactly like the source's `dict.get(_, 0)` reads.) -/
theorem bigram_model_laplace (corpus : List String) (p c : String)
    (hp : p ∈ prevVocab corpus) (hc : c ∈ nextVocab corpus) :
    tableEntry (bigram_model corpus) p c =
      some (((countPair corpus p c : ℚ) + 1) /
        ((prevCount corpus p : ℚ) + ((nextVocab corpus).length : ℚ))) := by
  unfold tableEntry bigram_model
  rw [findVal_map_self _ _ (prevVocab_nodup corpus) p hp]
  simp only [Option.some_bind]
  unfold buildRow
  rw [findVal_map_self _ _ (nextVocab_nodup corpus) c hc]
  rfl

/-- Witness for C1 at the spec's own example corpus:
`probability(cat|the) = (1+1)/(2+6) = 0.25`. -/
theorem bigram_model_laplace_witness :
    tableEntry (bigram_model ["the cat sat", "the dog ran"]) "the" "cat" = some (1/4) := by
  have h := bigram_model_laplace ["the cat sat", "the dog ran"] "the" "cat"
    (by decide) (by decide)
  rw [h]
  decide

/-- C2.  Every materialized row of a table built by `bigram_model` is a
probability distribution: its values sum to exactly `1` (hence certainly
within the claimed `1e-9` tolerance) and every entry is strictly positive. -/
theorem bigram_model_row_distribution (corpus : List String) (p : String) (row : Row)
    (hmem : (p, row) ∈ bigram_model corpus) :
    (row.map Prod.snd).sum = 1 ∧ ∀ v ∈ row.map Prod.snd, 0 < v := by
  unfold bigram_model at hmem
  rcases List.mem_map.mp hmem with ⟨p', _, heq⟩
  have hrow : row = buildRow corpus p' := (Prod.mk.injEq _ _ _ _).mp heq.symm |>.2
  subst hrow
  refine ⟨buildRow_snd_sum corpus p', ?_⟩
  intro v hv
  rcases List.mem_map.mp hv with ⟨kv, hkv, hvv⟩
  unfold buildRow at hkv
  rcases List.mem_map.mp hkv with ⟨c, _, hc⟩
  rw [← hvv, ← hc]
  exact smoothProb_pos corpus p' c

/-- Witness for C2: the `UNKNOWN` row of the table built from the one-line
corpus `"a b"` sums to `1` and has positive entries. -/
theorem bigram_model_row_distribution_witness :
    (([("a", (1:ℚ)/3), ("b", (1:ℚ)/3), ("", (1:ℚ)/3)].map Prod.snd).sum = 1 ∧
      ∀ v ∈ [("a", (1:ℚ)/3), ("b", (1:ℚ)/3), ("", (1:ℚ)/3)].map Prod.snd, 0 < v) :=
  bigram_model_row_distribution ["a b"] ""
    [("a", (1:ℚ)/3), ("b", (1:ℚ)/3), ("", (1:ℚ)/3)] (by decide)

/-- C3.  `getRow` returns `table[prev]` when `prev` is a key, else
`table[UNKNOWN]` when `UNKNOWN` is a key, else the empty row; and
`getProbability` returns the resolved row's entry for `curr` when present,
else that row's `UNKNOWN` entry when present, else `0.0`. -/
theorem lookup_fallback_chain (t : Table) (prev curr : String) :
    ((∀ row, findVal t prev = some row → _get_row t prev = row) ∧
      (findVal t prev = none →
        ∀ row, findVal t UNKNOWN = some row → _get_row t prev = row) ∧
      (findVal t prev = none → findVal t UNKNOWN = none → _get_row t prev = [])) ∧
    ((∀ v, findVal (_get_row t prev) curr = some v → _get_prob t prev curr = v) ∧
      (findVal (_get_row t prev) curr = none →
        ∀ v, findVal (_get_row t prev) UNKNOWN = some v → _get_prob t prev curr = v) ∧
      (findVal (_get_row t prev) curr = none →
        findVal (_get_row t prev) UNKNOWN = none → _get_prob t prev curr = 0)) := by
  constructor
  · refine ⟨?_, ?_, ?_⟩
    · intro row h
      simp [_get_row, h]
    · intro h1 row h2
      simp [_get_row, h1, h2]
    · intro h1 h2
      simp [_get_row, h1, h2]
  · refine ⟨?_, ?_, ?_⟩
    · intro v h
      simp [_get_prob, h]
    · intro h1 v h2
      simp [_get_prob, h1, h2]
    · intro h1 h2
      simp [_get_prob, h1, h2]

/-- Witness for C3: on the table `\x7b"": \x7b"b": 1/2\x7d\x7d`, an unseen
previous token resolves to the `UNKNOWN` row, and an unseen current token
with no `UNKNOWN` column yields `0.0`. -/
theorem lookup_fallback_chain_witness :
    _get_row [("", [("b", (1:ℚ)/2)])] "zz" = [("b", (1:ℚ)/2)] ∧
      _get_prob [("b", [("c", (1:ℚ)/2)])] "b" "qq" = 0 := by
  constructor
  · exact (lookup_fallback_chain [("", [("b", (1:ℚ)/2)])] "zz" "qq").1.2.1
      (by decide) _ (by decide)
  · exact (lookup_fallback_chain [("b", [("c", (1:ℚ)/2)])] "b" "qq").2.2.2
      (by decide) (by decide)

/-! ### Generator loop infrastructure -/

theorem iterN_inv (f : GState → GState) (P : GState → Prop)
    (hstep : ∀ s, P s → P (f s)) : ∀ (n : Nat) (s : GState), P s → P (iterN f n s) := by
  intro n
  induction n with
  | zero => intro s h; exact h
  | succ k ih => intro s h; exact ih (f s) (hstep s h)

theorem head?_append_left {α : Type} (l l' : List α) (h : l ≠ []) :
    (l ++ l').head? = l.head? := by
  cases l with
  | nil => exact absurd rfl h
  | cons a t => rfl

/-- Both loop bodies produce the same record shape; this exposes it for the
greedy body. -/
theorem greedyStep_eq (t : Table) (m : Nat) (st : GState) :
    greedyStep t m st =
      { seq := st.seq ++ [(chooseGreedy m st.punctUsed st.usedNonpunct
            (sortDesc (_get_row t st.prev))).1]
        q := if 0 < _get_prob t st.prev (chooseGreedy m st.punctUsed st.usedNonpunct
            (sortDesc (_get_row t st.prev))).1 then
            st.q * _get_prob t st.prev (chooseGreedy m st.punctUsed st.usedNonpunct
              (sortDesc (_get_row t st.prev))).1
          else 0
        punctUsed := if _is_punct (chooseGreedy m st.punctUsed st.usedNonpunct
            (sortDesc (_get_row t st.prev))).1 then st.punctUsed + 1 else st.punctUsed
        usedNonpunct := if _is_punct (chooseGreedy m st.punctUsed st.usedNonpunct
            (sortDesc (_get_row t st.prev))).1 then st.usedNonpunct
          else (chooseGreedy m st.punctUsed st.usedNonpunct
            (sortDesc (_get_row t st.prev))).1 :: st.usedNonpunct
        prev := (chooseGreedy m st.punctUsed st.usedNonpunct
          (sortDesc (_get_row t st.prev))).1
        mechs := st.mechs ++ [(chooseGreedy m st.punctUsed st.usedNonpunct
          (sortDesc (_get_row t st.prev))).2] } := rfl

/-- The same record shape for the lookahead body. -/
theorem plusStep_eq (t : Table) (m : Nat) (st : GState) :
    plusStep t m st =
      { seq := st.seq ++ [(choosePlus t m st.punctUsed st.usedNonpunct
            (sortDesc (_get_row t st.prev))).1]
        q := if 0 < _get_prob t st.prev (choosePlus t m st.punctUsed st.usedNonpunct
            (sortDesc (_get_row t st.prev))).1 then
            st.q * _get_prob t st.prev (choosePlus t m st.punctUsed st.usedNonpunct
              (sortDesc (_get_row t st.prev))).1
          else 0
        punctUsed := if _is_punct (choosePlus t m st.punctUsed st.usedNonpunct
            (sortDesc (_get_row t st.prev))).1 then st.punctUsed + 1 else st.punctUsed
        usedNonpunct := if _is_punct (choosePlus t m st.punctUsed st.usedNonpunct
            (sortDesc (_get_row t st.prev))).1 then st.usedNonpunct
          else (choosePlus t m st.punctUsed st.usedNonpunct
            (sortDesc (_get_row t st.prev))).1 :: st.usedNonpunct
        prev := (choosePlus t m st.punctUsed st.usedNonpunct
          (sortDesc (_get_row t st.prev))).1
        mechs := st.mechs ++ [(choosePlus t m st.punctUsed st.usedNonpunct
          (sortDesc (_get_row t st.prev))).2] } := rfl

theorem iterN_seq_length (f : GState → GState)
    (hf : ∀ s, (f s).seq.length = s.seq.length + 1) :
    ∀ (n : Nat) (st : GState), (iterN f n st).seq.length = st.seq.length + n := by
  intro n
  induction n with
  | zero => intro st; rfl
  | succ k ih =>
    intro st
    rw [iterN, ih (f st), hf st]
    omega

theorem greedyStep_len (t : Table) (m : Nat) (s : GState) :
    (greedyStep t m s).seq.length = s.seq.length + 1 := by
  rw [greedyStep_eq]
  simp

theorem plusStep_len (t : Table) (m : Nat) (s : GState) :
    (plusStep t m s).seq.length = s.seq.length + 1 := by
  rw [plusStep_eq]
  simp

theorem greedyRun_length (t : Table) (seed : String) (N : Int) :
    (greedyRun t seed N).seq.length = 1 + (N.toNat - 1) := by
  unfold greedyRun
  rw [iterN_seq_length _ (greedyStep_len t _)]
  rfl

theorem plusRun_length (t : Table) (seed : String) (N : Int) :
    (plusRun t seed N).seq.length = 1 + (N.toNat - 1) := by
  unfold plusRun
  rw [iterN_seq_length _ (plusStep_len t _)]
  rfl

theorem greedyRun_head (t : Table) (seed : String) (N : Int) :
    (greedyRun t seed N).seq.head? = some seed := by
  unfold greedyRun
  have h := iterN_inv (greedyStep t (N.toNat / 5)) (fun st => st.seq.head? = some seed)
    (fun s hs => by
      rw [greedyStep_eq]
      have hs2 : s.seq.head? = some seed := hs
      have hne : s.seq ≠ [] := by
        intro he
        rw [he] at hs2
        cases hs2
      simpa [head?_append_left _ _ hne] using hs2)
    (N.toNat - 1) (initState t seed) rfl
  exact h

theorem plusRun_head (t : Table) (seed : String) (N : Int) :
    (plusRun t seed N).seq.head? = some seed := by
  unfold plusRun
  have h := iterN_inv (plusStep t (N.toNat / 5)) (fun st => st.seq.head? = some seed)
    (fun s hs => by
      rw [plusStep_eq]
      have hs2 : s.seq.head? = some seed := hs
      have hne : s.seq ≠ [] := by
        intro he
        rw [he] at hs2
        cases hs2
      simpa [head?_append_left _ _ hne] using hs2)
    (N.toNat - 1) (initState t seed) rfl
  exact h

/-- C4 counterexample.  On the empty table with the unseen non-empty seed
`"a"` and `N = 1`, both generators raise `ValueError` (`math.log(0.0)` at the
unguarded initial step) instead of returning a length-1 sequence, so the
claim's universal "for every table" fails. -/
theorem length_contract_counterexample :
    (¬ ∃ s q, sequence_generator ([] : Table) "a" 1 = some (s, q)) ∧
    (¬ ∃ s q, sequence_generator_plus ([] : Table) "a" 1 = some (s, q)) := by
  have h1 : sequence_generator ([] : Table) "a" 1 = none := by decide
  have h2 : sequence_generator_plus ([] : Table) "a" 1 = none := by decide
  constructor
  · rintro ⟨s, q, h⟩
    rw [h1] at h
    cases h
  · rintro ⟨s, q, h⟩
    rw [h2] at h
    cases h

/-- C4 amended.  For `N ≤ 0` both generators return `([], 0.0)` (log encoded
as product `1`); for `N > 0`, *provided the unguarded initial `math.log` does
not raise* (the seed is empty, or its probability under `INIT` is positive —
always the case for tables built by `bigram_model`), both generators return a
sequence of length exactly `N` whose first element is the seed. -/
theorem length_contract (t : Table) (seed : String) (N : Int) :
    (N ≤ 0 → sequence_generator t seed N = some ([], 1) ∧
      sequence_generator_plus t seed N = some ([], 1)) ∧
    (0 < N → ¬ initRaises t seed →
      ∃ s q s2 q2, sequence_generator t seed N = some (s, q) ∧
        sequence_generator_plus t seed N = some (s2, q2) ∧
        s.length = N.toNat ∧ s2.length = N.toNat ∧
        s.head? = some seed ∧ s2.head? = some seed) := by
  constructor
  · intro h
    constructor
    · simp [sequence_generator, h]
    · simp [sequence_generator_plus, h]
  · intro hpos hnr
    have hnle : ¬ N ≤ 0 := by omega
    refine ⟨(greedyRun t seed N).seq, (greedyRun t seed N).q,
      (plusRun t seed N).seq, (plusRun t seed N).q, ?_, ?_, ?_, ?_, ?_, ?_⟩
    · simp [sequence_generator, hnle, hnr]
    · simp [sequence_generator_plus, hnle, hnr]
    · rw [greedyRun_length]
      omega
    · rw [plusRun_length]
      omega
    · exact greedyRun_head t seed N
    · exact plusRun_head t seed N

/-- Witness for C4 (amended) at the table of the one-line corpus `"a b"`,
seed `"a"`, `N = 3`. -/
theorem length_contract_witness :
    ∃ s q s2 q2, sequence_generator (bigram_model ["a b"]) "a" 3 = some (s, q) ∧
      sequence_generator_plus (bigram_model ["a b"]) "a" 3 = some (s2, q2) ∧
      s.length = (3 : Int).toNat ∧ s2.length = (3 : Int).toNat ∧
      s.head? = some "a" ∧ s2.head? = some "a" :=
  (length_contract (bigram_model ["a b"]) "a" 3).2 (by decide) (by decide)

/-- C8 counterexample.  On the table of corpus `"a b"` the seed `"z"` is
absent from the vocabulary, yet the initial log-probability is
`ln(1/4)` (the `UNKNOWN`-column fallback of the `INIT` row, product encoding
`1/4`), not the `0.0` (product `1`) the claim asserts for absent seeds. -/
theorem initial_logp_counterexample :
    sequence_generator (bigram_model ["a b"]) "z" 1 = some (["z"], 1/4) ∧
    sequence_generator_plus (bigram_model ["a b"]) "z" 1 = some (["z"], 1/4) ∧
    "z" ∉ nextVocab ["a b"] ∧ ((1 : ℚ)/4) ≠ 1 := by
  refine ⟨by decide, by decide, by decide, by decide⟩

/-- C8 amended.  The initial log-probability (the value returned at `N = 1`,
product encoding) is `ln(getProbability(table, INIT, seed))` whenever the
seed is non-empty and that probability is positive; it is `0.0` exactly when
the seed is empty (an absent but non-empty seed receives the `UNKNOWN`-column
fallback probability, not `0.0`); and a non-empty seed whose probability is
not positive raises `ValueError`. -/
theorem initial_logp (t : Table) (seed : String) :
    (seed = "" →
      sequence_generator t seed 1 = some ([seed], 1) ∧
      sequence_generator_plus t seed 1 = some ([seed], 1)) ∧
    (seed ≠ "" → 0 < _get_prob t INIT seed →
      sequence_generator t seed 1 = some ([seed], _get_prob t INIT seed) ∧
      sequence_generator_plus t seed 1 = some ([seed], _get_prob t INIT seed)) ∧
    (seed ≠ "" → _get_prob t INIT seed ≤ 0 →
      sequence_generator t seed 1 = none ∧
      sequence_generator_plus t seed 1 = none) := by
  refine ⟨?_, ?_, ?_⟩
  · intro h
    subst h
    have hnr : ¬ initRaises t "" := fun hr => hr.1 rfl
    constructor
    · simp [sequence_generator, hnr, greedyRun, iterN, initState]
    · simp [sequence_generator_plus, hnr, plusRun, iterN, initState]
  · intro h hp
    have hnr : ¬ initRaises t seed := fun hr => absurd hp (not_lt.mpr hr.2)
    constructor
    · simp [sequence_generator, hnr, greedyRun, iterN, initState, h]
    · simp [sequence_generator_plus, hnr, plusRun, iterN, initState, h]
  · intro h hp
    have hr : initRaises t seed := ⟨h, hp⟩
    constructor
    · simp [sequence_generator, hr]
    · simp [sequence_generator_plus, hr]

/-- Witness for C8 (amended): seed `"a"` on the table of corpus `"a b"`. -/
theorem initial_logp_witness :
    sequence_generator (bigram_model ["a b"]) "a" 1 =
      some (["a"], _get_prob (bigram_model ["a b"]) INIT "a") ∧
    sequence_generator_plus (bigram_model ["a b"]) "a" 1 =
      some (["a"], _get_prob (bigram_model ["a b"]) INIT "a") :=
  (initial_logp (bigram_model ["a b"]) "a").2.1 (by decide) (by decide)

/-- C9 counterexample.  On a table with neither the seed's key nor an
`UNKNOWN` row, the initial probability is exactly `0` and the generators do
*not* return normally: the unguarded `math.log(0.0)` raises `ValueError`
(the claim asserts the initial zero contributes `-inf` instead). -/
theorem no_exception_counterexample :
    sequence_generator [("x", [("y", (1:ℚ))])] "b" 2 = none ∧
    sequence_generator_plus [("x", [("y", (1:ℚ))])] "b" 2 = none := by
  refine ⟨by decide, by decide⟩

/-- C9 amended.  Both generators return normally *except* when the seed is
non-empty and its initial probability is not positive (where the unguarded
`math.log` raises `ValueError`); at every subsequent step a transition
probability of exactly `0` (or below) contributes `-inf` (product `0`) rather
than raising, and an accumulated `-inf` is absorbing through all later
additions (`0 * p = 0` in product encoding). -/
theorem no_exception_neg_inf (t : Table) (seed : String) (N : Int) :
    (¬ initRaises t seed →
      (∃ pr, sequence_generator t seed N = some pr) ∧
      (∃ pr, sequence_generator_plus t seed N = some pr)) ∧
    (∀ (m : Nat) (st : GState), st.q = 0 →
      (greedyStep t m st).q = 0 ∧ (plusStep t m st).q = 0) := by
  constructor
  · intro hnr
    by_cases hle : N ≤ 0
    · exact ⟨⟨([], 1), by simp [sequence_generator, hle]⟩,
        ⟨([], 1), by simp [sequence_generator_plus, hle]⟩⟩
    · exact ⟨⟨((greedyRun t seed N).seq, (greedyRun t seed N).q),
          by simp [sequence_generator, hle, hnr]⟩,
        ⟨((plusRun t seed N).seq, (plusRun t seed N).q),
          by simp [sequence_generator_plus, hle, hnr]⟩⟩
  · intro m st hq
    constructor
    · rw [greedyStep_eq]
      simp [hq]
    · rw [plusStep_eq]
      simp [hq]

/-- Witness for C9 (amended): a normal return on the table of corpus
`"a b"`, and absorption of a zero accumulator through one greedy and one
lookahead step. -/
theorem no_exception_neg_inf_witness :
    ((∃ pr, sequence_generator (bigram_model ["a b"]) "a" 5 = some pr) ∧
      (∃ pr, sequence_generator_plus (bigram_model ["a b"]) "a" 5 = some pr)) ∧
    ((greedyStep (bigram_model ["a b"]) 1 ⟨["a"], 0, 0, ["a"], "a", []⟩).q = 0 ∧
      (plusStep (bigram_model ["a b"]) 1 ⟨["a"], 0, 0, ["a"], "a", []⟩).q = 0) :=
  ⟨(no_exception_neg_inf (bigram_model ["a b"]) "a" 5).1 (by decide),
    (no_exception_neg_inf (bigram_model ["a b"]) "a" 5).2 1
      ⟨["a"], 0, 0, ["a"], "a", []⟩ rfl⟩

/-! ### Selection lemmas -/

theorem unknown_not_punct : _is_punct UNKNOWN = false := by decide

theorem passOk_true_iff {m pu : Nat} {used : List String} {tok : String} :
    passOk m pu used tok = true ↔
      tok ≠ INIT ∧ (_is_punct tok = true → pu < m) ∧
        (_is_punct tok = false → tok ∉ used) := by
  cases hpc : _is_punct tok
  · simp [passOk, hpc]
  · simp [passOk, hpc, Nat.lt_iff_add_one_le, Nat.not_le]

theorem chooseGreedy_cases (m pu : Nat) (used : List String) (cands : Row) :
    ((chooseGreedy m pu used cands).2 = Mech.fallback →
      (chooseGreedy m pu used cands).1 = UNKNOWN) ∧
    ((chooseGreedy m pu used cands).2 ≠ Mech.fallback →
      passOk m pu used (chooseGreedy m pu used cands).1 = true ∧
      ∃ p, ((chooseGreedy m pu used cands).1, p) ∈ cands) := by
  rcases h1 : cands.find? (fun kv => passOk m pu used kv.1 && decide (kv.1 ≠ UNKNOWN))
    with _ | kv1
  · rcases h2 : cands.find? (fun kv => passOk m pu used kv.1) with _ | kv2
    · have hch : chooseGreedy m pu used cands = (UNKNOWN, Mech.fallback) := by
        unfold chooseGreedy
        rw [h1, h2]
      rw [hch]
      exact ⟨fun _ => rfl, fun hne => absurd rfl hne⟩
    · have hmem := List.mem_of_find?_eq_some h2
      have hok := List.find?_some h2
      have hch : chooseGreedy m pu used cands = (kv2.1, Mech.pass2) := by
        unfold chooseGreedy
        rw [h1, h2]
      rw [hch]
      refine ⟨fun hf => ?_, fun _ => ?_⟩
      · cases hf
      · exact ⟨hok, ⟨kv2.2, hmem⟩⟩
  · have hmem := List.mem_of_find?_eq_some h1
    have hok := List.find?_some h1
    rw [Bool.and_eq_true] at hok
    have hch : chooseGreedy m pu used cands = (kv1.1, Mech.pass1) := by
      unfold chooseGreedy
      rw [h1]
    rw [hch]
    refine ⟨fun hf => ?_, fun _ => ?_⟩
    · cases hf
    · exact ⟨hok.1, ⟨kv1.2, hmem⟩⟩

theorem scanBest_fst (t : Table) (m pu : Nat) (used : List String) :
    ∀ (cs : Row) (acc : Option String × ℚ) (tok : String),
      (scanBest t m pu used cs acc).1 = some tok →
      acc.1 = some tok ∨
        ∃ p, (tok, p) ∈ cs ∧ passOk m pu used tok = true ∧ tok ≠ UNKNOWN := by
  intro cs
  induction cs with
  | nil => intro acc tok h; exact Or.inl h
  | cons kv rest ih =>
    intro acc tok h
    rw [scanBest] at h
    split at h
    · rename_i hcond
      rw [Bool.and_eq_true] at hcond
      obtain ⟨hok, hne⟩ := hcond
      simp only [] at h
      split at h
      · rcases ih _ tok h with h1 | h1
        · cases h1
          exact Or.inr ⟨kv.2, List.mem_cons_self kv rest, hok, by simpa using hne⟩
        · rcases h1 with ⟨p, hp, hok2, hne2⟩
          exact Or.inr ⟨p, List.mem_cons_of_mem kv hp, hok2, hne2⟩
      · rcases ih _ tok h with h1 | h1
        · exact Or.inl h1
        · rcases h1 with ⟨p, hp, hok2, hne2⟩
          exact Or.inr ⟨p, List.mem_cons_of_mem kv hp, hok2, hne2⟩
    · rcases ih _ tok h with h1 | h1
      · exact Or.inl h1
      · rcases h1 with ⟨p, hp, hok2, hne2⟩
        exact Or.inr ⟨p, List.mem_cons_of_mem kv hp, hok2, hne2⟩

theorem choosePlus_cases (t : Table) (m pu : Nat) (used : List String) (cands : Row) :
    ((choosePlus t m pu used cands).2 = Mech.fallback →
      (choosePlus t m pu used cands).1 = UNKNOWN) ∧
    ((choosePlus t m pu used cands).2 ≠ Mech.fallback →
      passOk m pu used (choosePlus t m pu used cands).1 = true ∧
      ∃ p, ((choosePlus t m pu used cands).1, p) ∈ cands) := by
  rcases h1 : (scanBest t m pu used cands (none, 0)).1 with _ | tok1
  · rcases h2 : cands.find? (fun kv => passOk m pu used kv.1) with _ | kv2
    · have hch : choosePlus t m pu used cands = (UNKNOWN, Mech.fallback) := by
        unfold choosePlus
        rw [h1, h2]
      rw [hch]
      exact ⟨fun _ => rfl, fun hne => absurd rfl hne⟩
    · have hmem := List.mem_of_find?_eq_some h2
      have hok := List.find?_some h2
      have hch : choosePlus t m pu used cands = (kv2.1, Mech.pass2) := by
        unfold choosePlus
        rw [h1, h2]
      rw [hch]
      refine ⟨fun hf => ?_, fun _ => ?_⟩
      · cases hf
      · exact ⟨hok, ⟨kv2.2, hmem⟩⟩
  · rcases scanBest_fst t m pu used cands (none, 0) tok1 h1 with h | h
    · cases h
    · rcases h with ⟨p, hp, hok, hne⟩
      have hch : choosePlus t m pu used cands = (tok1, Mech.pass1) := by
        unfold choosePlus
        rw [h1]
      rw [hch]
      refine ⟨fun hf => ?_, fun _ => ?_⟩
      · cases hf
      · exact ⟨hok, ⟨p, hp⟩⟩

/-! ### Punctuation budget -/

theorem punct_step_greedy (t : Table) (m b : Nat) (s : GState)
    (h : s.seq.countP (fun tok => _is_punct tok) = s.punctUsed ∧ s.punctUsed ≤ max m b) :
    (greedyStep t m s).seq.countP (fun tok => _is_punct tok) = (greedyStep t m s).punctUsed ∧
      (greedyStep t m s).punctUsed ≤ max m b := by
  obtain ⟨hc, hb⟩ := h
  rw [greedyStep_eq]
  set cm := chooseGreedy m s.punctUsed s.usedNonpunct (sortDesc (_get_row t s.prev)) with hcm
  cases hpc : _is_punct cm.1
  · simp [List.countP_append, hpc, hc, hb]
  · have hnf : cm.2 ≠ Mech.fallback := by
      intro hf
      have hu := (chooseGreedy_cases m s.punctUsed s.usedNonpunct
        (sortDesc (_get_row t s.prev))).1 hf
      rw [← hcm] at hu
      rw [hu, unknown_not_punct] at hpc
      cases hpc
    have hok := ((chooseGreedy_cases m s.punctUsed s.usedNonpunct
      (sortDesc (_get_row t s.prev))).2 (by rw [← hcm] at *; exact hnf)).1
    rw [← hcm] at hok
    have hlt : s.punctUsed < m := (passOk_true_iff.mp hok).2.1 hpc
    have hle : s.punctUsed + 1 ≤ max m b := le_trans hlt (le_max_left m b)
    simp [List.countP_append, hpc, hc, hle]

theorem punct_step_plus (t : Table) (m b : Nat) (s : GState)
    (h : s.seq.countP (fun tok => _is_punct tok) = s.punctUsed ∧ s.punctUsed ≤ max m b) :
    (plusStep t m s).seq.countP (fun tok => _is_punct tok) = (plusStep t m s).punctUsed ∧
      (plusStep t m s).punctUsed ≤ max m b := by
  obtain ⟨hc, hb⟩ := h
  rw [plusStep_eq]
  set cm := choosePlus t m s.punctUsed s.usedNonpunct (sortDesc (_get_row t s.prev)) with hcm
  cases hpc : _is_punct cm.1
  · simp [List.countP_append, hpc, hc, hb]
  · have hnf : cm.2 ≠ Mech.fallback := by
      intro hf
      have hu := (choosePlus_cases t m s.punctUsed s.usedNonpunct
        (sortDesc (_get_row t s.prev))).1 hf
      rw [← hcm] at hu
      rw [hu, unknown_not_punct] at hpc
      cases hpc
    have hok := ((choosePlus_cases t m s.punctUsed s.usedNonpunct
      (sortDesc (_get_row t s.prev))).2 (by rw [← hcm] at *; exact hnf)).1
    rw [← hcm] at hok
    have hlt : s.punctUsed < m := (passOk_true_iff.mp hok).2.1 hpc
    have hle : s.punctUsed + 1 ≤ max m b := le_trans hlt (le_max_left m b)
    simp [List.countP_append, hpc, hc, hle]

theorem initState_punct_inv (t : Table) (seed : String) (m : Nat) :
    (initState t seed).seq.countP (fun tok => _is_punct tok) = (initState t seed).punctUsed ∧
      (initState t seed).punctUsed ≤ max m (if _is_punct seed then 1 else 0) := by
  cases hp : _is_punct seed
  · constructor
    · simp [initState, hp, List.countP_cons]
    · simp [initState, hp]
  · constructor
    · simp [initState, hp, List.countP_cons]
    · simp [initState, hp]

theorem greedyRun_punct (t : Table) (seed : String) (N : Int) :
    (greedyRun t seed N).seq.countP (fun tok => _is_punct tok) ≤
      max (N.toNat / 5) (if _is_punct seed then 1 else 0) := by
  unfold greedyRun
  have h := iterN_inv (greedyStep t (N.toNat / 5))
    (fun st => st.seq.countP (fun tok => _is_punct tok) = st.punctUsed ∧
      st.punctUsed ≤ max (N.toNat / 5) (if _is_punct seed then 1 else 0))
    (fun s hs => punct_step_greedy t _ _ s hs)
    (N.toNat - 1) (initState t seed) (initState_punct_inv t seed _)
  obtain ⟨h1, h2⟩ := h
  rw [h1]
  exact h2

theorem plusRun_punct (t : Table) (seed : String) (N : Int) :
    (plusRun t seed N).seq.countP (fun tok => _is_punct tok) ≤
      max (N.toNat / 5) (if _is_punct seed then 1 else 0) := by
  unfold plusRun
  have h := iterN_inv (plusStep t (N.toNat / 5))
    (fun st => st.seq.countP (fun tok => _is_punct tok) = st.punctUsed ∧
      st.punctUsed ≤ max (N.toNat / 5) (if _is_punct seed then 1 else 0))
    (fun s hs => punct_step_plus t _ _ s hs)
    (N.toNat - 1) (initState t seed) (initState_punct_inv t seed _)
  obtain ⟨h1, h2⟩ := h
  rw [h1]
  exact h2

/-- C5 counterexample.  With the punctuation seed `","` and `N = 4`
(`floor(N/5) = 0`) on the table of corpus `"a b"`, both generators return a
sequence containing one punctuation token (the seed is never filtered), which
exceeds the claimed bound `floor(4/5) = 0`. -/
theorem punct_budget_counterexample :
    sequence_generator (bigram_model ["a b"]) "," 4 = some ([",", "a", "b", ""], 1/72) ∧
    sequence_generator_plus (bigram_model ["a b"]) "," 4 = some ([",", "a", "b", ""], 1/72) ∧
    ¬ (([",", "a", "b", ""].countP (fun tok => _is_punct tok)) ≤ (4 : Int).toNat / 5) := by
  refine ⟨by decide, by decide, by decide⟩

/-- C5 amended.  For every table, seed and `N > 0`, the number of punctuation
tokens in any sequence either generator returns, counting the seed, never
exceeds `max(floor(N/5), s)` where `s = 1` if the seed itself is punctuation
and `0` otherwise; in particular the claimed bound `floor(N/5)` holds
whenever the seed is not a punctuation token. -/
theorem punct_budget (t : Table) (seed : String) (N : Int) (hN : 0 < N) :
    (∀ s q, sequence_generator t seed N = some (s, q) →
      s.countP (fun tok => _is_punct tok) ≤
        max (N.toNat / 5) (if _is_punct seed then 1 else 0)) ∧
    (∀ s q, sequence_generator_plus t seed N = some (s, q) →
      s.countP (fun tok => _is_punct tok) ≤
        max (N.toNat / 5) (if _is_punct seed then 1 else 0)) := by
  have hnle : ¬ N ≤ 0 := by omega
  constructor
  · intro s q h
    unfold sequence_generator at h
    rw [if_neg hnle] at h
    by_cases hr : initRaises t seed
    · rw [if_pos hr] at h
      cases h
    · rw [if_neg hr] at h
      simp only [Option.some.injEq, Prod.mk.injEq] at h
      rw [← h.1]
      exact greedyRun_punct t seed N
  · intro s q h
    unfold sequence_generator_plus at h
    rw [if_neg hnle] at h
    by_cases hr : initRaises t seed
    · rw [if_pos hr] at h
      cases h
    · rw [if_neg hr] at h
      simp only [Option.some.injEq, Prod.mk.injEq] at h
      rw [← h.1]
      exact plusRun_punct t seed N

/-- Witness for C5 (amended) at the counterexample input itself. -/
theorem punct_budget_witness :
    [",", "a", "b", ""].countP (fun tok => _is_punct tok) ≤
      max ((4 : Int).toNat / 5) (if _is_punct "," then 1 else 0) :=
  (punct_budget (bigram_model ["a b"]) "," 4 (by decide)).1 [",", "a", "b", ""]
    (1/72) (by decide)

/-! ### Non-repetition -/

theorem nonrep_step_greedy (t : Table) (m : Nat) (s : GState)
    (h : (∀ tok, _is_punct tok = false → tok ∈ s.seq → tok ∈ s.usedNonpunct) ∧
      (∀ tok, _is_punct tok = false → tok ≠ UNKNOWN → s.seq.count tok ≤ 1)) :
    (∀ tok, _is_punct tok = false → tok ∈ (greedyStep t m s).seq →
      tok ∈ (greedyStep t m s).usedNonpunct) ∧
    (∀ tok, _is_punct tok = false → tok ≠ UNKNOWN →
      (greedyStep t m s).seq.count tok ≤ 1) := by
  obtain ⟨hmem, hcnt⟩ := h
  rw [greedyStep_eq]
  set cm := chooseGreedy m s.punctUsed s.usedNonpunct (sortDesc (_get_row t s.prev)) with hcm
  constructor
  · intro tok hp htok
    simp only [List.mem_append, List.mem_singleton] at htok
    rcases htok with h1 | h1
    · have hin := hmem tok hp h1
      cases hpc : _is_punct cm.1
      · simpa [hpc] using List.mem_cons_of_mem cm.1 hin
      · simpa [hpc] using hin
    · subst h1
      simp [hp]
  · intro tok hp hne
    show (s.seq ++ [cm.1]).count tok ≤ 1
    rw [List.count_append]
    by_cases he : tok = cm.1
    · have hnf : cm.2 ≠ Mech.fallback := by
        intro hf
        have hu := (chooseGreedy_cases m s.punctUsed s.usedNonpunct
          (sortDesc (_get_row t s.prev))).1 hf
        rw [← hcm] at hu
        exact hne (he.trans hu)
      have hok := ((chooseGreedy_cases m s.punctUsed s.usedNonpunct
        (sortDesc (_get_row t s.prev))).2 (by rw [← hcm] at *; exact hnf)).1
      rw [← hcm] at hok
      have hnotused : cm.1 ∉ s.usedNonpunct :=
        (passOk_true_iff.mp hok).2.2 (by rw [← he]; exact hp)
      have hnotseq : cm.1 ∉ s.seq := fun hin =>
        hnotused (hmem cm.1 (by rw [← he]; exact hp) hin)
      rw [he, List.count_eq_zero.mpr hnotseq]
      simp
    · have h1 : List.count tok [cm.1] = 0 := by
        rw [List.count_eq_zero]
        simp [he]
      rw [h1]
      simpa using hcnt tok hp hne

theorem nonrep_step_plus (t : Table) (m : Nat) (s : GState)
    (h : (∀ tok, _is_punct tok = false → tok ∈ s.seq → tok ∈ s.usedNonpunct) ∧
      (∀ tok, _is_punct tok = false → tok ≠ UNKNOWN → s.seq.count tok ≤ 1)) :
    (∀ tok, _is_punct tok = false → tok ∈ (plusStep t m s).seq →
      tok ∈ (plusStep t m s).usedNonpunct) ∧
    (∀ tok, _is_punct tok = false → tok ≠ UNKNOWN →
      (plusStep t m s).seq.count tok ≤ 1) := by
  obtain ⟨hmem, hcnt⟩ := h
  rw [plusStep_eq]
  set cm := choosePlus t m s.punctUsed s.usedNonpunct (sortDesc (_get_row t s.prev)) with hcm
  constructor
  · intro tok hp htok
    simp only [List.mem_append, List.mem_singleton] at htok
    rcases htok with h1 | h1
    · have hin := hmem tok hp h1
      cases hpc : _is_punct cm.1
      · simpa [hpc] using List.mem_cons_of_mem cm.1 hin
      · simpa [hpc] using hin
    · subst h1
      simp [hp]
  · intro tok hp hne
    show (s.seq ++ [cm.1]).count tok ≤ 1
    rw [List.count_append]
    by_cases he : tok = cm.1
    · have hnf : cm.2 ≠ Mech.fallback := by
        intro hf
        have hu := (choosePlus_cases t m s.punctUsed s.usedNonpunct
          (sortDesc (_get_row t s.prev))).1 hf
        rw [← hcm] at hu
        exact hne (he.trans hu)
      have hok := ((choosePlus_cases t m s.punctUsed s.usedNonpunct
        (sortDesc (_get_row t s.prev))).2 (by rw [← hcm] at *; exact hnf)).1
      rw [← hcm] at hok
      have hnotused : cm.1 ∉ s.usedNonpunct :=
        (passOk_true_iff.mp hok).2.2 (by rw [← he]; exact hp)
      have hnotseq : cm.1 ∉ s.seq := fun hin =>
        hnotused (hmem cm.1 (by rw [← he]; exact hp) hin)
      rw [he, List.count_eq_zero.mpr hnotseq]
      simp
    · have h1 : List.count tok [cm.1] = 0 := by
        rw [List.count_eq_zero]
        simp [he]
      rw [h1]
      simpa using hcnt tok hp hne

theorem initState_nonrep (t : Table) (seed : String) :
    (∀ tok, _is_punct tok = false → tok ∈ (initState t seed).seq →
      tok ∈ (initState t seed).usedNonpunct) ∧
    (∀ tok, _is_punct tok = false → tok ≠ UNKNOWN →
      (initState t seed).seq.count tok ≤ 1) := by
  constructor
  · intro tok hp htok
    simp only [initState, List.mem_singleton] at htok
    subst htok
    simp [initState, hp]
  · intro tok hp hne
    have : (initState t seed).seq.length = 1 := rfl
    calc (initState t seed).seq.count tok ≤ (initState t seed).seq.length :=
          List.count_le_length _ _
      _ = 1 := this

/-- C6.  No non-punctuation token other than `UNKNOWN` ever appears twice in
a sequence returned by either generator.  `UNKNOWN` (the empty string) is the
only token the absolute empty-row fallback can emit, and is itself
non-punctuation, so this carve-out is exactly the claim's exception for
tokens emitted through that fallback. -/
theorem non_repetition (t : Table) (seed : String) (N : Int) (tok : String)
    (hp : _is_punct tok = false) (hne : tok ≠ UNKNOWN) :
    (∀ s q, sequence_generator t seed N = some (s, q) → s.count tok ≤ 1) ∧
    (∀ s q, sequence_generator_plus t seed N = some (s, q) → s.count tok ≤ 1) := by
  by_cases hle : N ≤ 0
  · constructor
    · intro s q h
      simp [sequence_generator, hle] at h
      rw [h.1]
      simp
    · intro s q h
      simp [sequence_generator_plus, hle] at h
      rw [h.1]
      simp
  · constructor
    · intro s q h
      unfold sequence_generator at h
      rw [if_neg hle] at h
      by_cases hr : initRaises t seed
      · rw [if_pos hr] at h
        cases h
      · rw [if_neg hr] at h
        simp only [Option.some.injEq, Prod.mk.injEq] at h
        rw [← h.1]
        have hinv := iterN_inv (greedyStep t (N.toNat / 5))
          (fun st => (∀ x, _is_punct x = false → x ∈ st.seq → x ∈ st.usedNonpunct) ∧
            (∀ x, _is_punct x = false → x ≠ UNKNOWN → st.seq.count x ≤ 1))
          (fun sst hs => nonrep_step_greedy t _ sst hs)
          (N.toNat - 1) (initState t seed) (initState_nonrep t seed)
        exact hinv.2 tok hp hne
    · intro s q h
      unfold sequence_generator_plus at h
      rw [if_neg hle] at h
      by_cases hr : initRaises t seed
      · rw [if_pos hr] at h
        cases h
      · rw [if_neg hr] at h
        simp only [Option.some.injEq, Prod.mk.injEq] at h
        rw [← h.1]
        have hinv := iterN_inv (plusStep t (N.toNat / 5))
          (fun st => (∀ x, _is_punct x = false → x ∈ st.seq → x ∈ st.usedNonpunct) ∧
            (∀ x, _is_punct x = false → x ≠ UNKNOWN → st.seq.count x ≤ 1))
          (fun sst hs => nonrep_step_plus t _ sst hs)
          (N.toNat - 1) (initState t seed) (initState_nonrep t seed)
        exact hinv.2 tok hp hne

/-- Witness for C6: token `"b"` occurs at most once in the greedy sequence
generated from the table of corpus `"a b"` with seed `"a"` and `N = 3`. -/
theorem non_repetition_witness :
    List.count "b" ["a", "b", ""] ≤ 1 :=
  (non_repetition (bigram_model ["a b"]) "a" 3 "b" (by decide) (by decide)).1
    ["a", "b", ""] (1/12) (by decide)

/-! ### UNKNOWN sentinel bookkeeping -/

/-- How many generated (non-seed) tokens are `UNKNOWN` *and* were chosen by
one of the two selection passes (rather than the absolute fallback), read off
the ghost trace. -/
def passUnknownCount (st : GState) : Nat :=
  (st.seq.tail.zip st.mechs).countP
    (fun x => decide (x.1 = UNKNOWN) && decide (x.2 ≠ Mech.fallback))

/-- The invariant behind C10: trace and sequence lengths agree, the passes
have chosen `UNKNOWN` at most once, and once they have, `UNKNOWN` is in the
used set (so they can never choose it again). -/
def unkInv (st : GState) : Prop :=
  st.seq.length = st.mechs.length + 1 ∧ passUnknownCount st ≤ 1 ∧
    (1 ≤ passUnknownCount st → UNKNOWN ∈ st.usedNonpunct)

theorem zip_append_singleton {α β : Type} :
    ∀ (l1 : List α) (l2 : List β) (a : α) (b : β), l1.length = l2.length →
      (l1 ++ [a]).zip (l2 ++ [b]) = l1.zip l2 ++ [(a, b)] := by
  intro l1
  induction l1 with
  | nil =>
    intro l2 a b h
    cases l2 with
    | nil => rfl
    | cons y t2 => cases h
  | cons x t ih =>
    intro l2 a b h
    cases l2 with
    | nil => cases h
    | cons y t2 =>
      simp only [List.cons_append, List.zip_cons_cons, List.length_cons] at *
      rw [ih t2 a b (by omega)]

theorem tail_append_singleton {α : Type} (l : List α) (a : α) (h : l ≠ []) :
    (l ++ [a]).tail = l.tail ++ [a] := by
  cases l with
  | nil => exact absurd rfl h
  | cons x t => rfl

theorem unkInv_extend (s : GState) (c : String) (mech : Mech) (q' : ℚ) (pu' : Nat)
    (m : Nat)
    (hok : mech ≠ Mech.fallback → passOk m s.punctUsed s.usedNonpunct c = true)
    (hinv : unkInv s) :
    unkInv
      { seq := s.seq ++ [c]
        q := q'
        punctUsed := pu'
        usedNonpunct := if _is_punct c then s.usedNonpunct else c :: s.usedNonpunct
        prev := c
        mechs := s.mechs ++ [mech] } := by
  obtain ⟨hlen, hcnt, himp⟩ := hinv
  have hne : s.seq ≠ [] := by
    intro he
    rw [he] at hlen
    cases hlen
  have htail : (s.seq ++ [c]).tail = s.seq.tail ++ [c] := tail_append_singleton _ _ hne
  have hlen2 : s.seq.tail.length = s.mechs.length := by
    rw [List.length_tail, hlen]
    omega
  have hzip : ((s.seq ++ [c]).tail).zip (s.mechs ++ [mech]) =
      (s.seq.tail.zip s.mechs) ++ [(c, mech)] := by
    rw [htail]
    exact zip_append_singleton _ _ _ _ hlen2
  have hcount : passUnknownCount
      { seq := s.seq ++ [c]
        q := q'
        punctUsed := pu'
        usedNonpunct := if _is_punct c then s.usedNonpunct else c :: s.usedNonpunct
        prev := c
        mechs := s.mechs ++ [mech] } =
      passUnknownCount s +
        (if c = UNKNOWN ∧ mech ≠ Mech.fallback then 1 else 0) := by
    unfold passUnknownCount
    simp only [hzip, List.countP_append]
    congr 1
    by_cases hcase : c = UNKNOWN ∧ mech ≠ Mech.fallback
    · simp [List.countP_cons, hcase.1, hcase.2]
    · rw [if_neg hcase]
      rw [Decidable.not_and_iff_or_not] at hcase
      rcases hcase with hcase | hcase
      · simp [List.countP_cons, hcase]
      · rw [Decidable.not_not] at hcase
        simp [List.countP_cons, hcase]
  refine ⟨by simp [hlen], ?_, ?_⟩
  · rw [hcount]
    by_cases hcase : c = UNKNOWN ∧ mech ≠ Mech.fallback
    · have hok2 := hok hcase.2
      have hnu : c ∉ s.usedNonpunct :=
        (passOk_true_iff.mp hok2).2.2 (by rw [hcase.1]; exact unknown_not_punct)
      have hzero : passUnknownCount s = 0 := by
        by_contra hnz
        exact hnu (by rw [hcase.1]; exact himp (by omega))
      rw [hzero, if_pos hcase]
    · rw [if_neg hcase]
      simpa using hcnt
  · rw [hcount]
    intro hge
    by_cases hcase : c = UNKNOWN ∧ mech ≠ Mech.fallback
    · have hpc : _is_punct c = false := by
        rw [hcase.1]
        exact unknown_not_punct
      simp only [hpc, Bool.false_eq_true, if_neg]
      rw [← hcase.1]
      exact List.mem_cons_self c s.usedNonpunct
    · rw [if_neg hcase] at hge
      simp only [Nat.add_zero] at hge
      have hm := himp hge
      cases hpc : _is_punct c
      · simpa [hpc] using List.mem_cons_of_mem c hm
      · simpa [hpc] using hm

theorem unkInv_step_greedy (t : Table) (m : Nat) (s : GState) (hinv : unkInv s) :
    unkInv (greedyStep t m s) := by
  rw [greedyStep_eq]
  exact unkInv_extend s _ _ _ _ m
    (fun hnf => ((chooseGreedy_cases m s.punctUsed s.usedNonpunct
      (sortDesc (_get_row t s.prev))).2 hnf).1)
    hinv

theorem unkInv_step_plus (t : Table) (m : Nat) (s : GState) (hinv : unkInv s) :
    unkInv (plusStep t m s) := by
  rw [plusStep_eq]
  exact unkInv_extend s _ _ _ _ m
    (fun hnf => ((choosePlus_cases t m s.punctUsed s.usedNonpunct
      (sortDesc (_get_row t s.prev))).2 hnf).1)
    hinv

theorem initState_unkInv (t : Table) (seed : String) : unkInv (initState t seed) := by
  refine ⟨rfl, ?_, ?_⟩
  · show passUnknownCount (initState t seed) ≤ 1
    simp [passUnknownCount, initState]
  · intro h
    simp [passUnknownCount, initState] at h

/-- C10.  `UNKNOWN` (the empty string) is non-punctuation; whenever either
generator emits it, it lands in the used-non-punctuation set and leaves the
punctuation counter unchanged; consequently the constrained and relaxed
selection passes choose `UNKNOWN` at most once per generated sequence (only
the absolute fallback can emit it again), as read off the ghost trace. -/
theorem unknown_fallback_once (t : Table) (seed : String) (N : Int) :
    _is_punct UNKNOWN = false ∧
    (∀ (m : Nat) (st : GState),
      ((greedyStep t m st).prev = UNKNOWN →
        UNKNOWN ∈ (greedyStep t m st).usedNonpunct ∧
          (greedyStep t m st).punctUsed = st.punctUsed) ∧
      ((plusStep t m st).prev = UNKNOWN →
        UNKNOWN ∈ (plusStep t m st).usedNonpunct ∧
          (plusStep t m st).punctUsed = st.punctUsed)) ∧
    passUnknownCount (greedyRun t seed N) ≤ 1 ∧
    passUnknownCount (plusRun t seed N) ≤ 1 := by
  refine ⟨by decide, ?_, ?_, ?_⟩
  · intro m st
    constructor
    · intro hprev
      rw [greedyStep_eq] at hprev ⊢
      simp only at hprev
      rw [hprev, unknown_not_punct]
      simp [hprev]
    · intro hprev
      rw [plusStep_eq] at hprev ⊢
      simp only at hprev
      rw [hprev, unknown_not_punct]
      simp [hprev]
  · exact (iterN_inv (greedyStep t (N.toNat / 5)) unkInv (unkInv_step_greedy t _)
      (N.toNat - 1) (initState t seed) (initState_unkInv t seed)).2.1
  · exact (iterN_inv (plusStep t (N.toNat / 5)) unkInv (unkInv_step_plus t _)
      (N.toNat - 1) (initState t seed) (initState_unkInv t seed)).2.1

/-- Witness for C10: on the empty-corpus table the greedy generator emits
`UNKNOWN` from seed `"x"` (relaxed pass), adding it to the used set without
touching the punctuation counter, and the pass-chosen `UNKNOWN` count of the
3-token run is at most 1. -/
theorem unknown_fallback_once_witness :
    (UNKNOWN ∈ (greedyStep (bigram_model []) 0
        ⟨["x"], 1, 0, ["x"], "x", []⟩).usedNonpunct ∧
      (greedyStep (bigram_model []) 0 ⟨["x"], 1, 0, ["x"], "x", []⟩).punctUsed =
        (⟨["x"], 1, 0, ["x"], "x", []⟩ : GState).punctUsed) ∧
    passUnknownCount (greedyRun (bigram_model []) "x" 3) ≤ 1 :=
  ⟨((unknown_fallback_once (bigram_model []) "x" 3).2.1 0
      ⟨["x"], 1, 0, ["x"], "x", []⟩).1 (by decide),
    (unknown_fallback_once (bigram_model []) "x" 3).2.2.1⟩

/-! ### Lookahead scoring (C7) -/

/-- The largest element of a list of rationals (`0` for the empty list; only
applied to non-empty lists of positive values). -/
def maxQ : List ℚ → ℚ
  | [] => 0
  | x :: xs => max x (maxQ xs)

/-- The spec's `bestNextLog(tok)` in product encoding, written from the
spec's words for comparison against the source's `bestNextProd`: the
probability of the *highest-probability* admissible continuation from
`tok`'s row under the hypothetically updated constraint state, or the
neutral factor `1` (`bestNextLog = 0`) when no admissible continuation
exists. -/
def specBestNext (t : Table) (m newPu : Nat) (newUsed : List String) (tok : String) : ℚ :=
  if ((_get_row t tok).filter (fun kv => passOk m newPu newUsed kv.1)).isEmpty then 1
  else maxQ (((_get_row t tok).filter (fun kv => passOk m newPu newUsed kv.1)).map Prod.snd)

/-- The spec's `score(tok) = ln p(tok|prev) + bestNextLog(tok)` in product
encoding, for a candidate row entry `(tok, p)`. -/
def specScore (t : Table) (m pu : Nat) (used : List String) (tok : String) (p : ℚ) : ℚ :=
  p * specBestNext t m (if _is_punct tok then pu + 1 else pu)
    (if _is_punct tok then used else tok :: used) tok

theorem mem_sortDesc {l : Row} {kv : String × ℚ} : kv ∈ sortDesc l ↔ kv ∈ l :=
  (List.perm_insertionSort probGE l).mem_iff

theorem sortDesc_sorted (l : Row) : (sortDesc l).Sorted probGE :=
  List.sorted_insertionSort probGE l

theorem find?_sorted_max :
    ∀ (l : Row), l.Sorted probGE → ∀ (p : (String × ℚ) → Bool) (kv : String × ℚ),
      l.find? p = some kv → ∀ kv' ∈ l, p kv' = true → kv'.2 ≤ kv.2 := by
  intro l
  induction l with
  | nil =>
    intro _ p kv h
    cases h
  | cons a tl ih =>
    intro hs p kv h kv' hmem hp
    rw [List.sorted_cons] at hs
    by_cases hpa : p a = true
    · rw [List.find?_cons_of_pos _ hpa] at h
      cases h
      rcases List.mem_cons.mp hmem with h1 | h1
      · rw [h1]
      · exact hs.1 kv' h1
    · rw [List.find?_cons_of_neg _ hpa] at h
      rcases List.mem_cons.mp hmem with h1 | h1
      · rw [h1] at hp
        exact absurd hp hpa
      · exact ih hs.2 p kv h kv' h1 hp

theorem row_entry_pos {t : Table} (hpos : ∀ pr ∈ t, ∀ kv ∈ pr.2, (0:ℚ) < kv.2)
    {prev : String} {kv : String × ℚ} (h : kv ∈ _get_row t prev) : 0 < kv.2 := by
  unfold _get_row at h
  rcases hf : findVal t prev with _ | row
  · rw [hf] at h
    rcases hf2 : findVal t UNKNOWN with _ | row2
    · rw [hf2] at h
      cases h
    · rw [hf2] at h
      exact hpos _ (findVal_mem_of_eq_some hf2) kv h
  · rw [hf] at h
    exact hpos _ (findVal_mem_of_eq_some hf) kv h

theorem maxQ_ge {x : ℚ} : ∀ {l : List ℚ}, x ∈ l → x ≤ maxQ l := by
  intro l
  induction l with
  | nil => intro h; cases h
  | cons a tl ih =>
    intro h
    rcases List.mem_cons.mp h with h1 | h1
    · rw [h1, maxQ]
      exact le_max_left _ _
    · exact le_trans (ih h1) (le_max_right _ _)

theorem maxQ_le {b : ℚ} (hb : 0 ≤ b) : ∀ {l : List ℚ}, (∀ y ∈ l, y ≤ b) → maxQ l ≤ b := by
  intro l
  induction l with
  | nil => intro _; exact hb
  | cons a tl ih =>
    intro h
    rw [maxQ]
    exact max_le (h a (List.mem_cons_self a tl)) (ih (fun y hy => h y (List.mem_cons_of_mem a hy)))

theorem maxQ_eq {x : ℚ} {l : List ℚ} (hx : x ∈ l) (hb : ∀ y ∈ l, y ≤ x) (h0 : 0 ≤ x) :
    maxQ l = x :=
  le_antisymm (maxQ_le h0 hb) (maxQ_ge hx)

theorem bestNextProd_nonneg (t : Table) (m newPu : Nat) (newUsed : List String)
    (tok : String) : 0 ≤ bestNextProd t m newPu newUsed tok := by
  unfold bestNextProd
  rcases hf : (sortDesc (_get_row t tok)).find?
      (fun kv2 => passOk m newPu newUsed kv2.1) with _ | kv2
  · rw [hf]
  · rw [hf]
    show (0 : ℚ) ≤ if 0 < kv2.2 then kv2.2 else 0
    by_cases h2 : 0 < kv2.2
    · rw [if_pos h2]
      exact le_of_lt h2
    · rw [if_neg h2]

/-- Under entrywise positivity, the source's `best_log_next`-with-neutral
factor coincides with the spec's `bestNextLog` (product encoding). -/
theorem bestNextFactor_eq (t : Table) (hpos : ∀ pr ∈ t, ∀ kv ∈ pr.2, (0:ℚ) < kv.2)
    (m newPu : Nat) (newUsed : List String) (tok : String) :
    (if bestNextProd t m newPu newUsed tok ≠ 0 then bestNextProd t m newPu newUsed tok
      else 1) = specBestNext t m newPu newUsed tok := by
  rcases hf : (sortDesc (_get_row t tok)).find?
      (fun kv2 => passOk m newPu newUsed kv2.1) with _ | kv2
  · have hb : bestNextProd t m newPu newUsed tok = 0 := by
      unfold bestNextProd
      rw [hf]
    have hfil : ((_get_row t tok).filter (fun kv => passOk m newPu newUsed kv.1)) = [] := by
      rw [List.find?_eq_none] at hf
      rw [List.filter_eq_nil_iff]
      intro kv hkv
      exact fun hp => hf kv (mem_sortDesc.mpr hkv) hp
    rw [hb, if_neg (fun h => h rfl)]
    unfold specBestNext
    rw [hfil]
    rfl
  · have hmem : kv2 ∈ _get_row t tok := mem_sortDesc.mp (List.mem_of_find?_eq_some hf)
    have hok := List.find?_some hf
    have hp2 : 0 < kv2.2 := row_entry_pos hpos hmem
    have hb : bestNextProd t m newPu newUsed tok = kv2.2 := by
      unfold bestNextProd
      rw [hf]
      exact if_pos hp2
    rw [hb, if_pos (ne_of_gt hp2)]
    have hmemf : kv2 ∈ (_get_row t tok).filter (fun kv => passOk m newPu newUsed kv.1) :=
      List.mem_filter.mpr ⟨hmem, hok⟩
    have hfe : ¬ ((((_get_row t tok).filter
        (fun kv => passOk m newPu newUsed kv.1)).isEmpty) = true) := by
      rw [List.isEmpty_iff]
      intro h
      rw [h] at hmemf
      cases hmemf
    unfold specBestNext
    rw [if_neg hfe]
    symm
    apply maxQ_eq
    · exact List.mem_map.mpr ⟨kv2, hmemf, rfl⟩
    · intro y hy
      rcases List.mem_map.mp hy with ⟨kv3, hkv3, hy2⟩
      rcases List.mem_filter.mp hkv3 with ⟨hkv3m, hkv3ok⟩
      rw [← hy2]
      exact find?_sorted_max (sortDesc (_get_row t tok)) (sortDesc_sorted _) _ kv2 hf kv3
        (mem_sortDesc.mpr hkv3m) hkv3ok
    · exact le_of_lt hp2

/-- Under entrywise positivity the source's score and the spec's score agree
on every candidate of the resolved row. -/
theorem lookScore_eq_spec (t : Table) (hpos : ∀ pr ∈ t, ∀ kv ∈ pr.2, (0:ℚ) < kv.2)
    (m pu : Nat) (used : List String) {prev : String} {kv : String × ℚ}
    (hkv : kv ∈ _get_row t prev) :
    lookScore t m pu used kv.1 kv.2 = specScore t m pu used kv.1 kv.2 := by
  have hp : 0 < kv.2 := row_entry_pos hpos hkv
  show (if 0 < kv.2 then kv.2 else 0) *
      (if bestNextProd t m (if _is_punct kv.1 then pu + 1 else pu)
          (if _is_punct kv.1 then used else kv.1 :: used) kv.1 ≠ 0 then
        bestNextProd t m (if _is_punct kv.1 then pu + 1 else pu)
          (if _is_punct kv.1 then used else kv.1 :: used) kv.1
      else 1) =
    kv.2 * specBestNext t m (if _is_punct kv.1 then pu + 1 else pu)
      (if _is_punct kv.1 then used else kv.1 :: used) kv.1
  rw [if_pos hp, bestNextFactor_eq t hpos]

theorem lookScore_pos (t : Table) (m pu : Nat) (used : List String) (tok : String)
    {p : ℚ} (hp : 0 < p) : 0 < lookScore t m pu used tok p := by
  show 0 < (if 0 < p then p else 0) *
      (if bestNextProd t m (if _is_punct tok then pu + 1 else pu)
          (if _is_punct tok then used else tok :: used) tok ≠ 0 then
        bestNextProd t m (if _is_punct tok then pu + 1 else pu)
          (if _is_punct tok then used else tok :: used) tok
      else 1)
  rw [if_pos hp]
  apply mul_pos hp
  by_cases hb : bestNextProd t m (if _is_punct tok then pu + 1 else pu)
      (if _is_punct tok then used else tok :: used) tok ≠ 0
  · rw [if_pos hb]
    exact lt_of_le_of_ne (bestNextProd_nonneg _ _ _ _ _) (Ne.symm hb)
  · rw [if_neg hb]
    exact one_pos

theorem scanBest_acc_le (t : Table) (m pu : Nat) (used : List String) :
    ∀ (cs : Row) (acc : Option String × ℚ), acc.2 ≤ (scanBest t m pu used cs acc).2 := by
  intro cs
  induction cs with
  | nil => intro acc; exact le_refl _
  | cons kv rest ih =>
    intro acc
    rw [scanBest]
    by_cases hc : (passOk m pu used kv.1 && decide (kv.1 ≠ UNKNOWN)) = true
    · rw [if_pos hc]
      simp only []
      by_cases hlt : acc.2 < lookScore t m pu used kv.1 kv.2
      · rw [if_pos hlt]
        exact le_trans (le_of_lt hlt) (ih (some kv.1, lookScore t m pu used kv.1 kv.2))
      · rw [if_neg hlt]
        exact ih acc
    · rw [if_neg hc]
      exact ih acc

theorem scanBest_ge (t : Table) (m pu : Nat) (used : List String) :
    ∀ (cs : Row) (acc : Option String × ℚ) (kv : String × ℚ), kv ∈ cs →
      (passOk m pu used kv.1 && decide (kv.1 ≠ UNKNOWN)) = true →
      lookScore t m pu used kv.1 kv.2 ≤ (scanBest t m pu used cs acc).2 := by
  intro cs
  induction cs with
  | nil => intro acc kv h; cases h
  | cons kv0 rest ih =>
    intro acc kv hmem hcond
    rcases List.mem_cons.mp hmem with h1 | h1
    · subst h1
      rw [scanBest, if_pos hcond]
      simp only []
      by_cases hlt : acc.2 < lookScore t m pu used kv.1 kv.2
      · rw [if_pos hlt]
        exact scanBest_acc_le t m pu used rest (some kv.1, lookScore t m pu used kv.1 kv.2)
      · rw [if_neg hlt]
        exact le_trans (not_lt.mp hlt) (scanBest_acc_le t m pu used rest acc)
    · rw [scanBest]
      by_cases hc : (passOk m pu used kv0.1 && decide (kv0.1 ≠ UNKNOWN)) = true
      · rw [if_pos hc]
        simp only []
        by_cases hlt : acc.2 < lookScore t m pu used kv0.1 kv0.2
        · rw [if_pos hlt]
          exact ih _ kv h1 hcond
        · rw [if_neg hlt]
          exact ih _ kv h1 hcond
      · rw [if_neg hc]
        exact ih _ kv h1 hcond

theorem scanBest_result (t : Table) (m pu : Nat) (used : List String) :
    ∀ (cs : Row) (acc : Option String × ℚ),
      scanBest t m pu used cs acc = acc ∨
        ∃ kv, kv ∈ cs ∧ (passOk m pu used kv.1 && decide (kv.1 ≠ UNKNOWN)) = true ∧
          scanBest t m pu used cs acc =
            (some kv.1, lookScore t m pu used kv.1 kv.2) := by
  intro cs
  induction cs with
  | nil => intro acc; exact Or.inl rfl
  | cons kv0 rest ih =>
    intro acc
    rw [scanBest]
    by_cases hc : (passOk m pu used kv0.1 && decide (kv0.1 ≠ UNKNOWN)) = true
    · rw [if_pos hc]
      simp only []
      by_cases hlt : acc.2 < lookScore t m pu used kv0.1 kv0.2
      · rw [if_pos hlt]
        rcases ih (some kv0.1, lookScore t m pu used kv0.1 kv0.2) with h | ⟨kv, h1, h2, h3⟩
        · exact Or.inr ⟨kv0, List.mem_cons_self kv0 rest, hc, h⟩
        · exact Or.inr ⟨kv, List.mem_cons_of_mem kv0 h1, h2, h3⟩
      · rw [if_neg hlt]
        rcases ih acc with h | ⟨kv, h1, h2, h3⟩
        · exact Or.inl h
        · exact Or.inr ⟨kv, List.mem_cons_of_mem kv0 h1, h2, h3⟩
    · rw [if_neg hc]
      rcases ih acc with h | ⟨kv, h1, h2, h3⟩
      · exact Or.inl h
      · exact Or.inr ⟨kv, List.mem_cons_of_mem kv0 h1, h2, h3⟩

theorem choosePlus_argmax (t : Table) (hpos : ∀ pr ∈ t, ∀ kv ∈ pr.2, (0:ℚ) < kv.2)
    (m pu : Nat) (used : List String) (prev : String)
    (hex : ∃ kv ∈ sortDesc (_get_row t prev),
      (passOk m pu used kv.1 && decide (kv.1 ≠ UNKNOWN)) = true) :
    ∃ kv ∈ sortDesc (_get_row t prev),
      (passOk m pu used kv.1 && decide (kv.1 ≠ UNKNOWN)) = true ∧
      choosePlus t m pu used (sortDesc (_get_row t prev)) = (kv.1, Mech.pass1) ∧
      ∀ kv' ∈ sortDesc (_get_row t prev),
        (passOk m pu used kv'.1 && decide (kv'.1 ≠ UNKNOWN)) = true →
        lookScore t m pu used kv'.1 kv'.2 ≤ lookScore t m pu used kv.1 kv.2 := by
  obtain ⟨kv0, hmem0, hcond0⟩ := hex
  have hp0 : 0 < kv0.2 := row_entry_pos hpos (mem_sortDesc.mp hmem0)
  have hsc0 : 0 < lookScore t m pu used kv0.1 kv0.2 := lookScore_pos t m pu used kv0.1 hp0
  have hge := scanBest_ge t m pu used (sortDesc (_get_row t prev)) (none, 0) kv0 hmem0 hcond0
  have hres2 : 0 < (scanBest t m pu used (sortDesc (_get_row t prev)) (none, 0)).2 :=
    lt_of_lt_of_le hsc0 hge
  rcases scanBest_result t m pu used (sortDesc (_get_row t prev)) (none, 0)
    with hr | ⟨kv, hmem, hcond, hr⟩
  · rw [hr] at hres2
    exact absurd hres2 (lt_irrefl 0)
  · have h1 : (scanBest t m pu used (sortDesc (_get_row t prev)) (none, 0)).1 =
        some kv.1 := by rw [hr]
    have hch : choosePlus t m pu used (sortDesc (_get_row t prev)) =
        (kv.1, Mech.pass1) := by
      unfold choosePlus
      rw [h1]
    refine ⟨kv, hmem, hcond, hch, ?_⟩
    intro kv' hmem' hcond'
    have := scanBest_ge t m pu used (sortDesc (_get_row t prev)) (none, 0) kv' hmem' hcond'
    rw [hr] at this
    exact this

/-- C7.  In the lookahead generator each candidate `(tok, p)` of the resolved
row is scored, in product encoding, as `score(tok) = p * bestNext(tok)` where
`bestNext(tok)` is the probability of the highest-probability admissible
continuation from `tok`'s row under the hypothetically updated punctuation
count and non-repetition set, and the neutral factor `1` (`bestNextLog = 0`)
when no admissible continuation exists; whenever some admissible non-`UNKNOWN`
candidate exists, the scored pass commits a candidate of maximum score.
Stated for tables whose entries are all positive — the data-model invariant of
every `bigram_model` table (see C2); on degenerate tables with a
non-positive entry the source additionally treats a non-positive-probability
best continuation like a dead end. -/
theorem lookahead_scoring (t : Table)
    (hpos : ∀ pr ∈ t, ∀ kv ∈ pr.2, (0:ℚ) < kv.2)
    (m pu : Nat) (used : List String) (prev : String) :
    (∀ kv ∈ sortDesc (_get_row t prev),
      lookScore t m pu used kv.1 kv.2 = specScore t m pu used kv.1 kv.2) ∧
    ((∃ kv ∈ sortDesc (_get_row t prev),
        (passOk m pu used kv.1 && decide (kv.1 ≠ UNKNOWN)) = true) →
      ∃ kv ∈ sortDesc (_get_row t prev),
        (passOk m pu used kv.1 && decide (kv.1 ≠ UNKNOWN)) = true ∧
        choosePlus t m pu used (sortDesc (_get_row t prev)) = (kv.1, Mech.pass1) ∧
        ∀ kv' ∈ sortDesc (_get_row t prev),
          (passOk m pu used kv'.1 && decide (kv'.1 ≠ UNKNOWN)) = true →
          specScore t m pu used kv'.1 kv'.2 ≤ specScore t m pu used kv.1 kv.2) := by
  constructor
  · intro kv hkv
    exact lookScore_eq_spec t hpos m pu used (mem_sortDesc.mp hkv)
  · intro hex
    obtain ⟨kv, hmem, hcond, hch, hmax⟩ := choosePlus_argmax t hpos m pu used prev hex
    refine ⟨kv, hmem, hcond, hch, ?_⟩
    intro kv' hmem' hcond'
    rw [← lookScore_eq_spec t hpos m pu used (mem_sortDesc.mp hmem'),
      ← lookScore_eq_spec t hpos m pu used (mem_sortDesc.mp hmem)]
    exact hmax kv' hmem' hcond'

/-- Witness for C7: from previous token `"a"` on the table of corpus
`"a b"`, with `"a"` already used, the scored pass commits an admissible
candidate of maximum spec-score. -/
theorem lookahead_scoring_witness :
    ∃ kv ∈ sortDesc (_get_row (bigram_model ["a b"]) "a"),
      (passOk 1 0 ["a"] kv.1 && decide (kv.1 ≠ UNKNOWN)) = true ∧
      choosePlus (bigram_model ["a b"]) 1 0 ["a"]
        (sortDesc (_get_row (bigram_model ["a b"]) "a")) = (kv.1, Mech.pass1) ∧
      ∀ kv' ∈ sortDesc (_get_row (bigram_model ["a b"]) "a"),
        (passOk 1 0 ["a"] kv'.1 && decide (kv'.1 ≠ UNKNOWN)) = true →
        specScore (bigram_model ["a b"]) 1 0 ["a"] kv'.1 kv'.2 ≤
          specScore (bigram_model ["a b"]) 1 0 ["a"] kv.1 kv.2 :=
  (lookahead_scoring (bigram_model ["a b"]) (by decide) 1 0 ["a"] "a").2 (by decide)
